import Mathlib

/-
Verification of the geojson-places core: the geometry containment engine
(the polygon/multipolygon scan in `reverseGeolocation`, src/index-optimized.js),
the byte-size-bounded LRU result cache (src/cache.js), and the configuration
singleton. The ray-casting primitive `pointInPolygon` lives in src/utils.js and
is treated as an abstract boolean-valued parameter `pir : ρ → Pt → Bool` over an
abstract ring type `ρ`: every claim below quantifies over it. Points are pairs
(lng, lat) of rationals (the code builds `point = [lng, lat]`). JavaScript's
deep `clone` is the identity on the pure values modelled here.
-/
set_option linter.unusedSectionVars false
set_option linter.unusedVariables false

namespace GeojsonPlaces

/-- Points handed to the ring-containment primitive: `[lng, lat]`. -/
abbrev Pt := Rat × Rat

section GeometryEngine

variable {ρ : Type}

/-- GeoJSON geometry of a feature. The code reads `coordinates[0]` of each
polygon unconditionally, so a polygon's ring list is modelled as a pair of an
outer ring and a (possibly empty) list of hole rings. -/
inductive Geometry (ρ : Type) where
  | polygon (rings : ρ × List ρ)
  | multiPolygon (polys : List (ρ × List ρ))
deriving DecidableEq

/-- Feature properties read by `reverseGeolocation` (field names as in the
admin1 dataset). -/
structure FProps where
  cont_code : String
  iso_a2 : String
  adm0_a3 : String
  region_code : String
  iso_3166_2 : String
deriving DecidableEq

/-- A boundary feature: geometry plus properties. -/
structure Feature (ρ : Type) where
  geometry : Geometry ρ
  properties : FProps
deriving DecidableEq

/-- Hole-exclusion loop of `reverseGeolocation`: given that the outer test
passed, walk the hole rings; the first hole containing the point sets
`found = false` and breaks. -/
def holeLoop (pir : ρ → Pt → Bool) (p : Pt) : List ρ → Bool
  | [] => true
  | h :: hs => if pir h p then false else holeLoop pir p hs

/-- Containment test for one ring list, as in the `Polygon` branch (lines
65-75): test the outer ring, and on success run the hole loop. -/
def polyContains (pir : ρ → Pt → Bool) (p : Pt) (rings : ρ × List ρ) : Bool :=
  if pir rings.1 p then holeLoop pir p rings.2 else false

/-- Sub-polygon loop of the `MultiPolygon` branch (lines 76-90): apply the
polygon rule to each sub-polygon in order, breaking at the first success. -/
def multiLoop (pir : ρ → Pt → Bool) (p : Pt) : List (ρ × List ρ) → Bool
  | [] => false
  | q :: qs => if polyContains pir p q then true else multiLoop pir p qs

/-- Geometry dispatch of the scan loop body (lines 65-90). -/
def containsPoint (pir : ρ → Pt → Bool) : Geometry ρ → Pt → Bool
  | Geometry.polygon r, p => polyContains pir p r
  | Geometry.multiPolygon qs, p => multiLoop pir p qs

/-- Instrumented hole loop: also counts how many hole rings are tested before
the loop stops. -/
def holeLoopT (pir : ρ → Pt → Bool) (p : Pt) : List ρ → Bool × Nat
  | [] => (true, 0)
  | h :: hs =>
    if pir h p then (false, 1)
    else
      let r := holeLoopT pir p hs
      (r.1, r.2 + 1)

/-- Instrumented polygon test: counts every `pointInPolygon` ring test the
code performs on this ring list (outer ring included). -/
def polyContainsT (pir : ρ → Pt → Bool) (p : Pt) (rings : ρ × List ρ) : Bool × Nat :=
  if pir rings.1 p then
    let r := holeLoopT pir p rings.2
    (r.1, r.2 + 1)
  else (false, 1)

/-- Instrumented sub-polygon loop: counts how many sub-polygons are processed
before the loop stops. -/
def multiLoopT (pir : ρ → Pt → Bool) (p : Pt) : List (ρ × List ρ) → Bool × Nat
  | [] => (false, 0)
  | q :: qs =>
    if polyContains pir p q then (true, 1)
    else
      let r := multiLoopT pir p qs
      (r.1, r.2 + 1)

/-- Feature scan of `reverseGeolocation` (lines 63-93): walk the feature list
in order, breaking at the first feature whose geometry contains the point; the
result is `countries[i]`, the first matching feature, if any. -/
def scanIndex (pir : ρ → Pt → Bool) (features : List (Feature ρ)) (p : Pt) :
    Option (Feature ρ) :=
  match features with
  | [] => none
  | f :: fs => if containsPoint pir f.geometry p then some f else scanIndex pir fs p

/-- Instrumented scan: counts how many features are evaluated before the loop
stops. -/
def scanT (pir : ρ → Pt → Bool) (features : List (Feature ρ)) (p : Pt) :
    Option (Feature ρ) × Nat :=
  match features with
  | [] => (none, 0)
  | f :: fs =>
    if containsPoint pir f.geometry p then (some f, 1)
    else
      let r := scanT pir fs p
      (r.1, r.2 + 1)

end GeometryEngine

section Cache

variable {K V : Type}

/-- One stored cache entry: the cached value together with the byte-size
estimate computed when it was inserted (`{ data, size }` in cache.js). -/
structure CacheEntry (V : Type) where
  data : V
  size : Nat
deriving DecidableEq

/-- The LRU cache of cache.js. The JavaScript `Map` is modelled as an
association list in insertion order: the head is the oldest
(least-recently-used) entry, `Map.set` on an absent key appends at the tail.
Sizes are summed in `currentSize` exactly as the code does; `Int` is used
because JavaScript numbers are signed. -/
structure LRUCache (K V : Type) where
  maxSize : Int
  currentSize : Int
  cache : List (K × CacheEntry V)
deriving DecidableEq

/-- Sum of the stored entries' size fields. -/
def sumSizes (l : List (K × CacheEntry V)) : Int :=
  l.foldr (fun x s => (x.2.size : Int) + s) 0

variable [DecidableEq K]

/-- Key test used to model `Map.has` / `Map.get` / `Map.delete`. -/
def keyTest (k : K) : K × CacheEntry V → Bool :=
  fun x => decide (x.1 = k)

/-- Constructor `new LRUCache(maxSize)`. -/
def LRUCache.new (maxSize : Int) : LRUCache K V :=
  ⟨maxSize, 0, []⟩

/-- Method `get(key)` (lines 150-161): on a hit, delete the entry and
re-insert it at the most-recently-used tail, returning the stored value; on a
miss return nothing and leave the state as it is. The updated cache is
returned alongside the value because the JavaScript method mutates `this`. -/
def LRUCache.get (c : LRUCache K V) (k : K) : Option V × LRUCache K V :=
  match c.cache.find? (keyTest k) with
  | none => (none, c)
  | some e =>
    (some e.2.data, ⟨c.maxSize, c.currentSize, c.cache.eraseP (keyTest k) ++ [e]⟩)

/-- Method `remove(key)` (lines 182-188): if present, subtract the entry's
size and delete it. -/
def LRUCache.remove (c : LRUCache K V) (k : K) : LRUCache K V :=
  match c.cache.find? (keyTest k) with
  | none => c
  | some e =>
    ⟨c.maxSize, c.currentSize - (e.2.size : Int), c.cache.eraseP (keyTest k)⟩

/-- Eviction loop of `set` (lines 172-175): while the new entry does not fit
and the cache is non-empty, remove the first (oldest) entry. `remove` applied
to the head key pops the head and subtracts its size, which is what this
structural recursion does; `evictGo_is_remove_head` below checks that reading
of `remove`. -/
def evictGo (maxSize : Int) (size : Nat) :
    Int → List (K × CacheEntry V) → Int × List (K × CacheEntry V)
  | cur, [] => (cur, [])
  | cur, x :: rest =>
    if maxSize < cur + (size : Int) then
      evictGo maxSize size (cur - (x.2.size : Int)) rest
    else (cur, x :: rest)

/-- Method `set(key, data)` (lines 163-180): drop an existing entry for the
key first, evict oldest entries while the new one does not fit, then append
the new entry at the most-recently-used tail and add its size. The size
estimator `sz` stands for `_getSize` (a `JSON.stringify` length estimate,
external to the core). -/
def LRUCache.set (sz : V → Nat) (c : LRUCache K V) (k : K) (v : V) : LRUCache K V :=
  let c1 := if (c.cache.find? (keyTest k)).isSome then c.remove k else c
  let size := sz v
  let r := evictGo c1.maxSize size c1.currentSize c1.cache
  ⟨c1.maxSize, r.1 + (size : Int), r.2 ++ [(k, ⟨v, size⟩)]⟩

/-- Method `clear()` (lines 190-193). -/
def LRUCache.clear (c : LRUCache K V) : LRUCache K V :=
  ⟨c.maxSize, 0, []⟩

/-- `currentSize` just after the removal step at the top of `set`. -/
def curAfterRemove (c : LRUCache K V) (k : K) : Int :=
  match c.cache.find? (keyTest k) with
  | none => c.currentSize
  | some e => c.currentSize - (e.2.size : Int)

/-- Size-accounting invariant of the cache (spec §3 / §4.3): `currentSize` is
the exact sum of the stored entries' sizes. -/
abbrev SizeInv (c : LRUCache K V) : Prop :=
  c.currentSize = sumSizes c.cache

/-- Capacity invariant: the total size is within capacity, except in the
single state where the cache holds exactly one entry whose own size exceeds
the capacity. -/
abbrev CapInv (c : LRUCache K V) : Prop :=
  c.currentSize ≤ c.maxSize ∨ ∃ x, c.cache = [x] ∧ c.maxSize < (x.2.size : Int)

/-- Full state invariant maintained by the cache operations (for a
non-negative configured capacity). -/
abbrev CacheInv (c : LRUCache K V) : Prop :=
  0 ≤ c.maxSize ∧ SizeInv c ∧ CapInv c

/-- The cache operations invoked through the public surface
(`get`/`set`/`remove`/`clear`). -/
inductive CacheOp (K V : Type) where
  | get (k : K)
  | set (k : K) (v : V)
  | remove (k : K)
  | clear
deriving DecidableEq

/-- One operation applied to a cache state. -/
def applyOp (sz : V → Nat) (c : LRUCache K V) : CacheOp K V → LRUCache K V
  | CacheOp.get k => (c.get k).2
  | CacheOp.set k v => c.set sz k v
  | CacheOp.remove k => c.remove k
  | CacheOp.clear => c.clear

/-- A sequence of operations applied in order. -/
def runOps (sz : V → Nat) (ops : List (CacheOp K V)) (c : LRUCache K V) :
    LRUCache K V :=
  ops.foldl (applyOp sz) c

end Cache

section LookupService

/-- A JavaScript value passed as a coordinate argument: a number or some
other (non-numeric) value, represented by its string form. `typeof v ===
'number'` holds exactly for the `num` constructor. -/
inductive JSValue where
  | num (x : Rat)
  | str (s : String)
deriving DecidableEq

/-- Cache key of `reverseGeolocation` (line 52). In the code it is the string
`lat ++ "_" ++ lng ++ "_" ++ dataType`; since a number's string form contains
no underscore, that encoding is injective on (lat, lng, dataType) triples, so
the key is modelled as the triple itself. `dataType` is `none` for the
default mode ('null' in the string). -/
abbrev CacheKey := Rat × Rat × Option String

/-- Properties object derived in the default and geojson modes (lines
103-111). `state_code = none` models the field being absent from the object
(the code only assigns it under the guard; it is never set to null). -/
structure DerivedProps where
  continent_code : String
  country_a2 : String
  country_a3 : String
  region_code : String
  state_code : Option String
deriving DecidableEq

variable {ρ : Type}

/-- The non-null result shapes of `reverseGeolocation` (lines 96-125):
`rawColl` is the single-feature collection around a deep clone of the matched
feature; `geojsonColl` the collection around the derived properties and a
clone of the geometry; `propsOnly` the derived properties object. -/
inductive RGResult (ρ : Type) where
  | rawColl (feature : Feature ρ)
  | geojsonColl (props : DerivedProps) (geom : Geometry ρ)
  | propsOnly (props : DerivedProps)
deriving DecidableEq

/-- Everything `reverseGeolocation` can return: the `Error` object built for
non-numeric input (carrying both offending values in its message), `null`,
or a result. -/
inductive RGReturn (ρ : Type) where
  | error (lat lng : JSValue)
  | null
  | result (r : RGResult ρ)
deriving DecidableEq

/-- The result cache as used by `reverseGeolocation`. -/
abbrev GPCache (ρ : Type) := LRUCache CacheKey (RGResult ρ)

/-- Properties derivation (lines 103-111): copy the four codes and add
`state_code` only when `iso_3166_2` is non-empty and does not end in the
sentinel `~`. -/
def deriveProperties (p : FProps) : DerivedProps :=
  { continent_code := p.cont_code
    country_a2 := p.iso_a2
    country_a3 := p.adm0_a3
    region_code := p.region_code
    state_code :=
      if p.iso_3166_2 ≠ "" ∧ p.iso_3166_2.endsWith "~" = false then
        some p.iso_3166_2
      else none }

/-- Result construction for a matched feature (lines 96-125), by mode. -/
def buildResult (dataType : Option String) (f : Feature ρ) : RGResult ρ :=
  if dataType = some "raw" then RGResult.rawColl f
  else
    let props := deriveProperties f.properties
    if dataType = some "geojson" then RGResult.geojsonColl props f.geometry
    else RGResult.propsOnly props

/-- `reverseGeolocation(lat, lng, dataType)` (lines 46-133). The cache is
threaded explicitly because the JavaScript methods mutate the shared cache
object; `sz` stands for the cache's external `_getSize` estimator and `pir`
for `pointInPolygon`. Order of effects as in the code: validate, probe the
cache, scan the features, build the result, store non-null results. -/
def reverseGeolocation (sz : RGResult ρ → Nat) (pir : ρ → Pt → Bool)
    (features : List (Feature ρ)) (cache0 : Option (GPCache ρ))
    (lat lng : JSValue) (dataType : Option String) :
    RGReturn ρ × Option (GPCache ρ) :=
  match lat, lng with
  | JSValue.num la, JSValue.num ln =>
    let key : CacheKey := (la, ln, dataType)
    let probe : Option (RGResult ρ) × Option (GPCache ρ) :=
      match cache0 with
      | some c => ((c.get key).1, some (c.get key).2)
      | none => (none, none)
    match probe with
    | (some v, cache1) => (RGReturn.result v, cache1)
    | (none, cache1) =>
      match scanIndex pir features (ln, la) with
      | none => (RGReturn.null, cache1)
      | some f =>
        let res := buildResult dataType f
        (RGReturn.result res,
         match cache1 with
         | some c => some (c.set sz key res)
         | none => none)
  | _, _ => (RGReturn.error lat lng, cache0)

/-- `lookUp(lat, lon)` (lines 135-137). -/
def lookUp (sz : RGResult ρ → Nat) (pir : ρ → Pt → Bool)
    (features : List (Feature ρ)) (cache0 : Option (GPCache ρ))
    (lat lon : JSValue) : RGReturn ρ × Option (GPCache ρ) :=
  reverseGeolocation sz pir features cache0 lat lon none

/-- `lookUpRaw(lat, lon)` (lines 139-141). -/
def lookUpRaw (sz : RGResult ρ → Nat) (pir : ρ → Pt → Bool)
    (features : List (Feature ρ)) (cache0 : Option (GPCache ρ))
    (lat lon : JSValue) : RGReturn ρ × Option (GPCache ρ) :=
  reverseGeolocation sz pir features cache0 lat lon (some "raw")

/-- `lookUpGeoJSON(lat, lon)` (lines 143-145). -/
def lookUpGeoJSON (sz : RGResult ρ → Nat) (pir : ρ → Pt → Bool)
    (features : List (Feature ρ)) (cache0 : Option (GPCache ρ))
    (lat lon : JSValue) : RGReturn ρ × Option (GPCache ρ) :=
  reverseGeolocation sz pir features cache0 lat lon (some "geojson")

/-- A cache state is coherent with the feature index when every stored entry
is the result a fresh scan would compute for its key. All states reachable by
lookups against this index from an empty cache are coherent. -/
def CacheCoherent (pir : ρ → Pt → Bool) (features : List (Feature ρ))
    (c : GPCache ρ) : Prop :=
  ∀ x ∈ c.cache, ∃ f, scanIndex pir features (x.1.2.1, x.1.1) = some f
    ∧ x.2.data = buildResult x.1.2.2 f

/-- Coherence lifted to the optional cache slot of the configuration. -/
def CacheCoherentO (pir : ρ → Pt → Bool) (features : List (Feature ρ)) :
    Option (GPCache ρ) → Prop
  | none => True
  | some c => CacheCoherent pir features c

/-- Concrete fixtures for the witnesses below: rings are opaque tokens and
`wpir` declares exactly the rings labelled 1 to contain every point. -/
def wpir : Nat → Pt → Bool := fun r _ => decide (r = 1)

/-- Constant size estimate used by the witnesses. -/
def wsz : RGResult Nat → Nat := fun _ => 1

/-- Fixture feature whose ring contains no point. -/
def wCA : Feature Nat :=
  ⟨Geometry.polygon (2, []), ⟨"NA", "CA", "CAN", "CANB", "CA-NB"⟩⟩

/-- Fixture feature whose ring contains every point. -/
def wUS : Feature Nat :=
  ⟨Geometry.polygon (1, []), ⟨"NA", "US", "USA", "USKS", "US-KS"⟩⟩

/-- Second fixture feature whose ring contains every point. -/
def wMX : Feature Nat :=
  ⟨Geometry.polygon (1, []), ⟨"NA", "MX", "MEX", "MXCH", "MX-CH"⟩⟩

end LookupService

section Configuration

variable {K V : Type}

/-- Options object accepted by `configure` (index-optimized.js lines 33-41):
a field is `none` when it is `undefined` in the call. -/
structure ConfigureOptions where
  cacheSize : Option Int
  useOptimized : Option Bool
deriving DecidableEq

/-- Module-level mutable state of index-optimized.js and cache.js: the
`config` object (`cacheSize`, `useOptimized`, `cache`) and the module-level
singleton `cacheInstance`. `config.cache` always aliases the singleton once
set; the model stores the value in both slots. -/
structure LibState (K V : Type) where
  cacheSize : Int
  useOptimized : Bool
  cache : Option (LRUCache K V)
  cacheInstance : Option (LRUCache K V)
deriving DecidableEq

/-- `getCache(maxSize)` (cache.js lines 214-219): construct the singleton on
first use, return the existing instance afterwards. Returns the result
together with the updated singleton slot. -/
def getCache (inst : Option (LRUCache K V)) (maxSize : Int) :
    LRUCache K V × Option (LRUCache K V) :=
  match inst with
  | some c => (c, some c)
  | none =>
    let c := LRUCache.new maxSize
    (c, some c)

/-- `configure(options)` (index-optimized.js lines 33-41): record a given
cacheSize and bind `config.cache` to `getCache(cacheSize)`; record a given
useOptimized flag. -/
def configure (opts : ConfigureOptions) (st : LibState K V) : LibState K V :=
  let st1 :=
    match opts.cacheSize with
    | some n =>
      let r := getCache st.cacheInstance n
      { st with cacheSize := n, cache := some r.1, cacheInstance := r.2 }
    | none => st
  match opts.useOptimized with
  | some b => { st1 with useOptimized := b }
  | none => st1

end Configuration

section GeometryTheorems

variable {ρ : Type}

theorem holeLoop_eq_all (pir : ρ → Pt → Bool) (p : Pt) (hs : List ρ) :
    holeLoop pir p hs = hs.all fun h => !(pir h p) := by
  induction hs with
  | nil => rfl
  | cons h hs ih =>
    by_cases hp : pir h p = true <;> simp [holeLoop, hp, ih]

theorem holeLoopT_spec (pir : ρ → Pt → Bool) (p : Pt) (hs : List ρ) :
    holeLoopT pir p hs =
      (hs.all fun h => !(pir h p),
       min ((hs.takeWhile fun h => !(pir h p)).length + 1) hs.length) := by
  induction hs with
  | nil => rfl
  | cons h hs ih =>
    by_cases hp : pir h p = true
    · simp [holeLoopT, hp, List.takeWhile_cons]
    · simp only [holeLoopT, hp, if_false, ih, List.takeWhile_cons, List.all_cons,
        Bool.not_eq_true', eq_self_iff_true]
      simp [hp, Nat.succ_min_succ]

theorem multiLoop_eq_any (pir : ρ → Pt → Bool) (p : Pt) (qs : List (ρ × List ρ)) :
    multiLoop pir p qs = qs.any fun q => polyContains pir p q := by
  induction qs with
  | nil => rfl
  | cons q qs ih =>
    by_cases hq : polyContains pir p q = true <;> simp [multiLoop, hq, ih]

theorem multiLoopT_spec (pir : ρ → Pt → Bool) (p : Pt) (qs : List (ρ × List ρ)) :
    multiLoopT pir p qs =
      (qs.any fun q => polyContains pir p q,
       min ((qs.takeWhile fun q => !(polyContains pir p q)).length + 1) qs.length) := by
  induction qs with
  | nil => rfl
  | cons q qs ih =>
    by_cases hq : polyContains pir p q = true
    · simp [multiLoopT, hq, List.takeWhile_cons]
    · simp only [multiLoopT, hq, if_false, ih, List.takeWhile_cons, List.any_cons,
        Bool.not_eq_true']
      simp [hq, Nat.succ_min_succ]

theorem polyContains_char (pir : ρ → Pt → Bool) (p : Pt) (q : ρ × List ρ) :
    polyContains pir p q = (pir q.1 p && q.2.all fun h => !(pir h p)) := by
  by_cases ho : pir q.1 p = true <;> simp [polyContains, ho, holeLoop_eq_all]

/-- C1: a Polygon contains the point iff the point is in the outer ring and in
none of the hole rings; the outer ring is the only ring tested when the outer
test fails, and otherwise hole testing stops at the first hole containing the
point; a MultiPolygon contains the point iff some sub-polygon passes the
polygon rule, and sub-polygons are processed in order, stopping at the first
success. -/
theorem polygon_containment_rule (pir : ρ → Pt → Bool) (p : Pt) (outer : ρ)
    (holes : List ρ) (polys : List (ρ × List ρ)) :
    containsPoint pir (Geometry.polygon (outer, holes)) p
        = (pir outer p && holes.all fun h => !(pir h p))
    ∧ (polyContainsT pir p (outer, holes)).1
        = containsPoint pir (Geometry.polygon (outer, holes)) p
    ∧ (polyContainsT pir p (outer, holes)).2
        = (if pir outer p then
             min ((holes.takeWhile fun h => !(pir h p)).length + 1) holes.length + 1
           else 1)
    ∧ containsPoint pir (Geometry.multiPolygon polys) p
        = polys.any (fun q => pir q.1 p && q.2.all (fun h => !(pir h p)))
    ∧ (multiLoopT pir p polys).1 = containsPoint pir (Geometry.multiPolygon polys) p
    ∧ (multiLoopT pir p polys).2
        = min ((polys.takeWhile fun q => !(polyContains pir p q)).length + 1)
            polys.length := by
  refine ⟨?_, ?_, ?_, ?_, ?_, ?_⟩
  · exact polyContains_char pir p (outer, holes)
  · by_cases ho : pir outer p = true <;>
      simp [containsPoint, polyContains, polyContainsT, ho, holeLoopT_spec,
        holeLoop_eq_all]
  · by_cases ho : pir outer p = true <;>
      simp [polyContainsT, ho, holeLoopT_spec]
  · simp [containsPoint, multiLoop_eq_any, polyContains_char]
  · simp [containsPoint, multiLoopT_spec, multiLoop_eq_any]
  · simp [multiLoopT_spec]

theorem scanIndex_append_of_none (pir : ρ → Pt → Bool) (p : Pt)
    (pre rest : List (Feature ρ))
    (hpre : ∀ f ∈ pre, containsPoint pir f.geometry p = false) :
    scanIndex pir (pre ++ rest) p = scanIndex pir rest p := by
  induction pre with
  | nil => rfl
  | cons f fs ih =>
    have hf := hpre f (List.mem_cons_self f fs)
    simp only [List.cons_append, scanIndex, hf, if_false]
    exact ih fun g hg => hpre g (List.mem_cons_of_mem f hg)

theorem scanT_append_of_none (pir : ρ → Pt → Bool) (p : Pt)
    (pre rest : List (Feature ρ))
    (hpre : ∀ f ∈ pre, containsPoint pir f.geometry p = false) :
    scanT pir (pre ++ rest) p
      = ((scanT pir rest p).1, (scanT pir rest p).2 + pre.length) := by
  induction pre with
  | nil => rfl
  | cons f fs ih =>
    have hf := hpre f (List.mem_cons_self f fs)
    have ih' := ih fun g hg => hpre g (List.mem_cons_of_mem f hg)
    simp only [List.cons_append, scanT, hf, Bool.false_eq_true, if_false,
      List.append_eq, ih', List.length_cons, Prod.mk.injEq]
    exact ⟨trivial, by omega⟩

theorem scanIndex_eq_none (pir : ρ → Pt → Bool) (p : Pt) (features : List (Feature ρ))
    (h : ∀ f ∈ features, containsPoint pir f.geometry p = false) :
    scanIndex pir features p = none := by
  induction features with
  | nil => rfl
  | cons f fs ih =>
    have hf := h f (List.mem_cons_self f fs)
    simp only [scanIndex, hf, if_false]
    exact ih fun g hg => h g (List.mem_cons_of_mem f hg)

end GeometryTheorems

section CacheTheorems

variable {K V : Type}

theorem sumSizes_nil : sumSizes ([] : List (K × CacheEntry V)) = 0 := rfl

theorem sumSizes_cons (x : K × CacheEntry V) (l : List (K × CacheEntry V)) :
    sumSizes (x :: l) = (x.2.size : Int) + sumSizes l := rfl

theorem sumSizes_append (l₁ l₂ : List (K × CacheEntry V)) :
    sumSizes (l₁ ++ l₂) = sumSizes l₁ + sumSizes l₂ := by
  induction l₁ with
  | nil => simp [sumSizes_nil, sumSizes]
  | cons x l ih => simp only [List.cons_append, sumSizes_cons, ih]; ring

theorem sumSizes_nonneg (l : List (K × CacheEntry V)) : 0 ≤ sumSizes l := by
  induction l with
  | nil => simp [sumSizes_nil]
  | cons x l ih => rw [sumSizes_cons]; positivity

variable [DecidableEq K]

/-- Sanity check for the eviction loop translation: calling `remove` on the
key of the oldest entry pops that entry and subtracts its size. -/
theorem evictGo_is_remove_head (c : LRUCache K V) (k : K) (e : CacheEntry V)
    (rest : List (K × CacheEntry V)) (h : c.cache = (k, e) :: rest) :
    c.remove k = ⟨c.maxSize, c.currentSize - (e.size : Int), rest⟩ := by
  simp [LRUCache.remove, h, List.find?, keyTest, List.eraseP_cons]

theorem eraseP_of_find?_none {q : K × CacheEntry V → Bool}
    {l : List (K × CacheEntry V)} (h : l.find? q = none) : l.eraseP q = l :=
  List.eraseP_of_forall_not fun x hx => by
    have := List.find?_eq_none.mp h x hx
    simpa using this

theorem sumSizes_eraseP {q : K × CacheEntry V → Bool} {l : List (K × CacheEntry V)}
    {e : K × CacheEntry V} (h : l.find? q = some e) :
    sumSizes (l.eraseP q) = sumSizes l - (e.2.size : Int) := by
  induction l with
  | nil => simp at h
  | cons x xs ih =>
    by_cases hq : q x = true
    · rw [List.find?_cons_of_pos xs hq] at h
      obtain rfl := Option.some.inj h
      rw [List.eraseP_cons_of_pos hq, sumSizes_cons]
      ring
    · rw [List.find?_cons_of_neg xs (by simpa using hq)] at h
      rw [List.eraseP_cons_of_neg (by simpa using hq), sumSizes_cons, sumSizes_cons,
        ih h]
      ring

/-- The eviction loop only ever drops a prefix of the recency order (the
oldest entries). -/
theorem evictGo_drop (mx : Int) (s : Nat) (cur : Int) (l : List (K × CacheEntry V)) :
    ∃ m, (evictGo mx s cur l).2 = l.drop m := by
  induction l generalizing cur with
  | nil => exact ⟨0, rfl⟩
  | cons x rest ih =>
    by_cases hc : mx < cur + (s : Int)
    · obtain ⟨m, hm⟩ := ih (cur - (x.2.size : Int))
      exact ⟨m + 1, by simpa [evictGo, hc] using hm⟩
    · exact ⟨0, by simp [evictGo, hc]⟩

/-- The eviction loop keeps `currentSize` equal to the sum of the remaining
entries' sizes, and stops only with an empty cache or with room for the new
entry. -/
theorem evictGo_sum_exit (mx : Int) (s : Nat) (cur : Int)
    (l : List (K × CacheEntry V)) (h : cur = sumSizes l) :
    (evictGo mx s cur l).1 = sumSizes (evictGo mx s cur l).2
    ∧ ((evictGo mx s cur l).2 = [] ∨ (evictGo mx s cur l).1 + (s : Int) ≤ mx) := by
  induction l generalizing cur with
  | nil =>
    refine ⟨?_, Or.inl rfl⟩
    simpa [evictGo, sumSizes_nil] using h
  | cons x rest ih =>
    by_cases hc : mx < cur + (s : Int)
    · have h' : cur - (x.2.size : Int) = sumSizes rest := by
        rw [h, sumSizes_cons]; ring
      simpa [evictGo, hc] using ih (cur - (x.2.size : Int)) h'
    · exact ⟨by simpa [evictGo, hc] using h, Or.inr (by simp [evictGo, hc]; omega)⟩

/-- If the new entry alone is larger than the capacity, the eviction loop
runs until the cache is empty. -/
theorem evictGo_oversized (mx : Int) (s : Nat) (cur : Int)
    (l : List (K × CacheEntry V)) (h : cur = sumSizes l) (hs : mx < (s : Int)) :
    evictGo mx s cur l = (0, []) := by
  induction l generalizing cur with
  | nil => simpa [evictGo, sumSizes_nil] using h
  | cons x rest ih =>
    have hnn : 0 ≤ cur := h ▸ sumSizes_nonneg (x :: rest)
    have hc : mx < cur + (s : Int) := by omega
    have h' : cur - (x.2.size : Int) = sumSizes rest := by
      rw [h, sumSizes_cons]; ring
    simpa [evictGo, hc] using ih (cur - (x.2.size : Int)) h'

/-- If the new entry already fits, the eviction loop does nothing. -/
theorem evictGo_noevict (mx : Int) (s : Nat) (cur : Int)
    (l : List (K × CacheEntry V)) (hc : ¬mx < cur + (s : Int)) :
    evictGo mx s cur l = (cur, l) := by
  cases l with
  | nil => rfl
  | cons x rest => simp [evictGo, hc]

/-- Unfolding of `set`: remove the key's old entry, evict from the old end,
append the new entry. -/
theorem set_eq (sz : V → Nat) (c : LRUCache K V) (k : K) (v : V) :
    c.set sz k v =
      ⟨c.maxSize,
       (evictGo c.maxSize (sz v) (curAfterRemove c k) (c.cache.eraseP (keyTest k))).1
         + (sz v : Int),
       (evictGo c.maxSize (sz v) (curAfterRemove c k) (c.cache.eraseP (keyTest k))).2
         ++ [(k, ⟨v, sz v⟩)]⟩ := by
  cases hf : c.cache.find? (keyTest k) with
  | none =>
    rw [LRUCache.set]
    simp [hf, curAfterRemove, eraseP_of_find?_none hf]
  | some e =>
    rw [LRUCache.set]
    simp [hf, curAfterRemove, LRUCache.remove]

theorem curAfterRemove_sum (c : LRUCache K V) (k : K)
    (h : c.currentSize = sumSizes c.cache) :
    curAfterRemove c k = sumSizes (c.cache.eraseP (keyTest k)) := by
  cases hf : c.cache.find? (keyTest k) with
  | none => rw [curAfterRemove, hf, eraseP_of_find?_none hf]; exact h
  | some e => rw [curAfterRemove, hf, sumSizes_eraseP hf, h]

theorem cacheInv_new (mx : Int) (h : 0 ≤ mx) :
    CacheInv (LRUCache.new (K := K) (V := V) mx) :=
  ⟨h, rfl, Or.inl h⟩

theorem cacheInv_clear (c : LRUCache K V) (h : 0 ≤ c.maxSize) : CacheInv c.clear :=
  ⟨h, rfl, Or.inl h⟩

theorem get_eq_of_find?_none (c : LRUCache K V) (k : K)
    (hf : c.cache.find? (keyTest k) = none) : c.get k = (none, c) := by
  simp [LRUCache.get, hf]

theorem get_eq_of_find?_some (c : LRUCache K V) (k : K) (e : K × CacheEntry V)
    (hf : c.cache.find? (keyTest k) = some e) :
    c.get k = (some e.2.data,
      ⟨c.maxSize, c.currentSize, c.cache.eraseP (keyTest k) ++ [e]⟩) := by
  simp [LRUCache.get, hf]

theorem get_maxSize (c : LRUCache K V) (k : K) : (c.get k).2.maxSize = c.maxSize := by
  cases hf : c.cache.find? (keyTest k) <;> simp [LRUCache.get, hf]

theorem remove_maxSize (c : LRUCache K V) (k : K) : (c.remove k).maxSize = c.maxSize := by
  cases hf : c.cache.find? (keyTest k) <;> simp [LRUCache.remove, hf]

theorem set_maxSize (sz : V → Nat) (c : LRUCache K V) (k : K) (v : V) :
    (c.set sz k v).maxSize = c.maxSize := by
  rw [set_eq]

theorem find?_singleton_eq {q : K × CacheEntry V → Bool} {x e : K × CacheEntry V}
    (hf : List.find? q [x] = some e) : e = x := by
  cases hq : q x with
  | false => rw [List.find?_cons_of_neg _ (by simp [hq])] at hf; simp at hf
  | true =>
    rw [List.find?_cons_of_pos _ hq] at hf
    exact (Option.some.inj hf).symm

theorem cacheInv_get (c : LRUCache K V) (k : K) (h : CacheInv c) :
    CacheInv (c.get k).2 := by
  obtain ⟨hmx, hsz, hcap⟩ := h
  cases hf : c.cache.find? (keyTest k) with
  | none =>
    rw [get_eq_of_find?_none c k hf]
    exact ⟨hmx, hsz, hcap⟩
  | some e =>
    rw [get_eq_of_find?_some c k e hf]
    refine ⟨hmx, ?_, ?_⟩
    · show c.currentSize = sumSizes (c.cache.eraseP (keyTest k) ++ [e])
      rw [sumSizes_append, sumSizes_eraseP hf, hsz, sumSizes_cons, sumSizes_nil]
      ring
    · rcases hcap with hle | ⟨x, hx, hbig⟩
      · exact Or.inl hle
      · refine Or.inr ⟨x, ?_, hbig⟩
        rw [hx] at hf
        have he : e = x := find?_singleton_eq hf
        have hq : keyTest k x = true := he ▸ List.find?_some hf
        show c.cache.eraseP (keyTest k) ++ [e] = [x]
        rw [hx, List.eraseP_cons_of_pos hq, he]
        rfl

theorem remove_eq_of_find?_some (c : LRUCache K V) (k : K) (e : K × CacheEntry V)
    (hf : c.cache.find? (keyTest k) = some e) :
    c.remove k = ⟨c.maxSize, c.currentSize - (e.2.size : Int),
      c.cache.eraseP (keyTest k)⟩ := by
  simp [LRUCache.remove, hf]

theorem remove_eq_of_find?_none (c : LRUCache K V) (k : K)
    (hf : c.cache.find? (keyTest k) = none) : c.remove k = c := by
  simp [LRUCache.remove, hf]

theorem cacheInv_remove (c : LRUCache K V) (k : K) (h : CacheInv c) :
    CacheInv (c.remove k) := by
  obtain ⟨hmx, hsz, hcap⟩ := h
  cases hf : c.cache.find? (keyTest k) with
  | none =>
    rw [remove_eq_of_find?_none c k hf]
    exact ⟨hmx, hsz, hcap⟩
  | some e =>
    rw [remove_eq_of_find?_some c k e hf]
    refine ⟨hmx, ?_, Or.inl ?_⟩
    · show c.currentSize - (e.2.size : Int) = sumSizes (c.cache.eraseP (keyTest k))
      rw [sumSizes_eraseP hf, hsz]
    · show c.currentSize - (e.2.size : Int) ≤ c.maxSize
      rcases hcap with hle | ⟨x, hx, hbig⟩
      · have : (0 : Int) ≤ (e.2.size : Int) := by positivity
        omega
      · rw [hx] at hf
        have he : e = x := find?_singleton_eq hf
        have : c.currentSize = (e.2.size : Int) := by
          rw [hsz, hx, he, sumSizes_cons, sumSizes_nil]; ring
        omega

theorem cacheInv_set (sz : V → Nat) (c : LRUCache K V) (k : K) (v : V)
    (h : CacheInv c) : CacheInv (c.set sz k v) := by
  obtain ⟨hmx, hsz, _⟩ := h
  have hcur : curAfterRemove c k = sumSizes (c.cache.eraseP (keyTest k)) :=
    curAfterRemove_sum c k hsz
  obtain ⟨hgsum, hgexit⟩ :=
    evictGo_sum_exit c.maxSize (sz v) (curAfterRemove c k)
      (c.cache.eraseP (keyTest k)) hcur
  rw [set_eq]
  refine ⟨hmx, ?_, ?_⟩
  · show _ = sumSizes (_ ++ [(k, ⟨v, sz v⟩)])
    rw [sumSizes_append, hgsum, sumSizes_cons, sumSizes_nil]
    ring
  · rcases hgexit with hemp | hfit
    · by_cases hbig : c.maxSize < (sz v : Int)
      · refine Or.inr ⟨(k, (⟨v, sz v⟩ : CacheEntry V)), ?_, hbig⟩
        show (evictGo _ _ _ _).2 ++ [(k, (⟨v, sz v⟩ : CacheEntry V))] = _
        rw [hemp]
        rfl
      · refine Or.inl ?_
        show (evictGo _ _ _ _).1 + (sz v : Int) ≤ c.maxSize
        rw [hgsum, hemp, sumSizes_nil]
        omega
    · exact Or.inl hfit

theorem applyOp_maxSize (sz : V → Nat) (c : LRUCache K V) (op : CacheOp K V) :
    (applyOp sz c op).maxSize = c.maxSize := by
  cases op with
  | get k => exact get_maxSize c k
  | set k v => exact set_maxSize sz c k v
  | remove k => exact remove_maxSize c k
  | clear => rfl

theorem cacheInv_applyOp (sz : V → Nat) (c : LRUCache K V) (op : CacheOp K V)
    (h : CacheInv c) : CacheInv (applyOp sz c op) := by
  cases op with
  | get k => exact cacheInv_get c k h
  | set k v => exact cacheInv_set sz c k v h
  | remove k => exact cacheInv_remove c k h
  | clear => exact cacheInv_clear c h.1

theorem cacheInv_runOps (sz : V → Nat) (ops : List (CacheOp K V))
    (c : LRUCache K V) (h : CacheInv c) :
    CacheInv (runOps sz ops c) ∧ (runOps sz ops c).maxSize = c.maxSize := by
  induction ops generalizing c with
  | nil => exact ⟨h, rfl⟩
  | cons op ops ih =>
    obtain ⟨h1, h2⟩ := ih (applyOp sz c op) (cacheInv_applyOp sz c op h)
    exact ⟨h1, h2.trans (applyOp_maxSize sz c op)⟩

theorem set_cache_proj (sz : V → Nat) (c : LRUCache K V) (k : K) (v : V) :
    (c.set sz k v).cache
      = (evictGo c.maxSize (sz v) (curAfterRemove c k)
          (c.cache.eraseP (keyTest k))).2 ++ [(k, ⟨v, sz v⟩)] := by
  rw [set_eq]

theorem set_currentSize_proj (sz : V → Nat) (c : LRUCache K V) (k : K) (v : V) :
    (c.set sz k v).currentSize
      = (evictGo c.maxSize (sz v) (curAfterRemove c k)
          (c.cache.eraseP (keyTest k))).1 + (sz v : Int) := by
  rw [set_eq]

theorem drop_append_singleton {α : Type} (m : Nat) (l : List α) (e : α) :
    (l ++ [e]).drop m = [] ∨ ∃ pre, (l ++ [e]).drop m = pre ++ [e] := by
  induction l generalizing m with
  | nil =>
    cases m with
    | zero => exact Or.inr ⟨[], rfl⟩
    | succ m => left; simp
  | cons a t ih =>
    cases m with
    | zero => exact Or.inr ⟨a :: t, rfl⟩
    | succ m =>
      simp only [List.cons_append, List.drop_succ_cons]
      exact ih m

/-- C4: `set(key, value)` first drops any existing entry for the key and its
size, then evicts least-recently-used entries (a prefix of the recency order)
while the new entry does not fit, then appends the new entry at the
most-recently-used end, keeping `currentSize` equal to the sum of stored
sizes; when nothing needs evicting, nothing is evicted; and an entry larger
than the whole capacity still gets inserted after the loop empties the
cache. -/
theorem lru_set_behavior (sz : V → Nat) (c : LRUCache K V) (k : K) (v : V)
    (h : c.currentSize = sumSizes c.cache) :
    (∃ m, (c.set sz k v).cache
        = (c.cache.eraseP (keyTest k)).drop m ++ [(k, ⟨v, sz v⟩)])
    ∧ (c.set sz k v).currentSize = sumSizes (c.set sz k v).cache
    ∧ (sumSizes (c.cache.eraseP (keyTest k)) + (sz v : Int) ≤ c.maxSize →
        (c.set sz k v).cache = c.cache.eraseP (keyTest k) ++ [(k, ⟨v, sz v⟩)])
    ∧ (c.maxSize < (sz v : Int) → (c.set sz k v).cache = [(k, ⟨v, sz v⟩)]) := by
  have hcur : curAfterRemove c k = sumSizes (c.cache.eraseP (keyTest k)) :=
    curAfterRemove_sum c k h
  obtain ⟨hgsum, _⟩ :=
    evictGo_sum_exit c.maxSize (sz v) (curAfterRemove c k)
      (c.cache.eraseP (keyTest k)) hcur
  refine ⟨?_, ?_, ?_, ?_⟩
  · obtain ⟨m, hm⟩ :=
      evictGo_drop c.maxSize (sz v) (curAfterRemove c k)
        (c.cache.eraseP (keyTest k))
    exact ⟨m, by rw [set_cache_proj, hm]⟩
  · rw [set_currentSize_proj, set_cache_proj, sumSizes_append, hgsum,
      sumSizes_cons, sumSizes_nil]
    ring
  · intro hfit
    rw [set_cache_proj, evictGo_noevict _ _ _ _ (by rw [hcur]; omega)]
  · intro hbig
    rw [set_cache_proj, evictGo_oversized _ _ _ _ hcur hbig]
    rfl

/-- C4 witness: a concrete `set` on a two-entry cache at capacity 6 evicts the
oldest entry and appends the new one. -/
theorem lru_set_behavior_witness :
    (∃ m, (LRUCache.set (fun v => v) ⟨6, 5, [(1, ⟨7, 2⟩), (2, ⟨8, 3⟩)]⟩ 3 4).cache
        = (([(1, ⟨7, 2⟩), (2, ⟨8, 3⟩)] : List (Nat × CacheEntry Nat)).eraseP
            (keyTest 3)).drop m ++ [(3, ⟨4, 4⟩)])
    ∧ (LRUCache.set (fun v => v) ⟨6, 5, [(1, ⟨7, 2⟩), (2, ⟨8, 3⟩)]⟩ 3 4).currentSize
        = sumSizes (LRUCache.set (fun v => v)
            ⟨6, 5, [(1, ⟨7, 2⟩), (2, ⟨8, 3⟩)]⟩ 3 4).cache
    ∧ (sumSizes (([(1, ⟨7, 2⟩), (2, ⟨8, 3⟩)] : List (Nat × CacheEntry Nat)).eraseP
          (keyTest 3)) + ((4 : Nat) : Int) ≤ 6 →
        (LRUCache.set (fun v => v) ⟨6, 5, [(1, ⟨7, 2⟩), (2, ⟨8, 3⟩)]⟩ 3 4).cache
          = ([(1, ⟨7, 2⟩), (2, ⟨8, 3⟩)] : List (Nat × CacheEntry Nat)).eraseP
              (keyTest 3) ++ [(3, ⟨4, 4⟩)])
    ∧ ((6 : Int) < ((4 : Nat) : Int) →
        (LRUCache.set (fun v => v) ⟨6, 5, [(1, ⟨7, 2⟩), (2, ⟨8, 3⟩)]⟩ 3 4).cache
          = [(3, ⟨4, 4⟩)]) :=
  lru_set_behavior (fun v => v) ⟨6, 5, [(1, ⟨7, 2⟩), (2, ⟨8, 3⟩)]⟩ 3 4 (by decide)

/-- C5: starting from a fresh cache, any sequence of `get`/`set`/`remove`/
`clear` operations keeps `currentSize` equal to the sum of the stored
entries' sizes, and the total never exceeds the capacity except when the
cache holds a single entry whose own size exceeds the capacity. -/
theorem lru_size_sum_and_capacity (sz : V → Nat) (mx : Int)
    (ops : List (CacheOp K V)) (h : 0 ≤ mx) :
    (runOps sz ops (LRUCache.new mx)).currentSize
        = sumSizes (runOps sz ops (LRUCache.new mx)).cache
    ∧ ((runOps sz ops (LRUCache.new mx)).currentSize ≤ mx
        ∨ ∃ x, (runOps sz ops (LRUCache.new mx)).cache = [x]
            ∧ mx < (x.2.size : Int)) := by
  obtain ⟨⟨_, hsz, hcap⟩, hmx⟩ :=
    cacheInv_runOps sz ops (LRUCache.new mx) (cacheInv_new mx h)
  refine ⟨hsz, ?_⟩
  rcases hcap with hle | ⟨x, hx, hb⟩
  · rw [hmx] at hle
    exact Or.inl hle
  · rw [hmx] at hb
    exact Or.inr ⟨x, hx, hb⟩

/-- C5 witness: a concrete run crossing the capacity boundary, including an
oversized insertion. -/
theorem lru_size_sum_and_capacity_witness :
    (runOps (fun v => v)
        [CacheOp.set 1 2, CacheOp.set 2 3, CacheOp.get 1, CacheOp.set 3 9,
         CacheOp.remove 3, CacheOp.set 1 4]
        (LRUCache.new 4)).currentSize
      = sumSizes (runOps (fun v => v)
          [CacheOp.set 1 2, CacheOp.set 2 3, CacheOp.get 1, CacheOp.set 3 9,
           CacheOp.remove 3, CacheOp.set 1 4]
          (LRUCache.new 4)).cache
    ∧ ((runOps (fun v => v)
          [CacheOp.set 1 2, CacheOp.set 2 3, CacheOp.get 1, CacheOp.set 3 9,
           CacheOp.remove 3, CacheOp.set 1 4]
          (LRUCache.new 4)).currentSize ≤ 4
        ∨ ∃ x, (runOps (fun v => v)
            [CacheOp.set 1 2, CacheOp.set 2 3, CacheOp.get 1, CacheOp.set 3 9,
             CacheOp.remove 3, CacheOp.set 1 4]
            (LRUCache.new 4)).cache = [x] ∧ (4 : Int) < (x.2.size : Int)) :=
  lru_size_sum_and_capacity (K := Nat) (fun v => v) 4
    [CacheOp.set 1 2, CacheOp.set 2 3, CacheOp.get 1, CacheOp.set 3 9,
     CacheOp.remove 3, CacheOp.set 1 4] (by decide)

/-- C6: `get` on a present key returns the stored value and moves the entry
to the most-recently-used end, leaving capacity, total size and the other
entries (in their relative order) unchanged, so that any run of the eviction
loop removes this entry only after removing every other entry; `get` on an
absent key returns nothing and leaves the cache exactly as it was. -/
theorem lru_get_behavior (c : LRUCache K V) (k : K) :
    (∀ e, c.cache.find? (keyTest k) = some e →
        (c.get k).1 = some e.2.data
        ∧ (c.get k).2.cache = c.cache.eraseP (keyTest k) ++ [e]
        ∧ (c.get k).2.currentSize = c.currentSize
        ∧ (c.get k).2.maxSize = c.maxSize
        ∧ e.1 = k
        ∧ (∀ cur s, (evictGo c.maxSize s cur (c.get k).2.cache).2 = []
            ∨ ∃ pre, (evictGo c.maxSize s cur (c.get k).2.cache).2 = pre ++ [e]))
    ∧ (c.cache.find? (keyTest k) = none → c.get k = (none, c)) := by
  constructor
  · intro e hf
    rw [get_eq_of_find?_some c k e hf]
    refine ⟨rfl, rfl, rfl, rfl, ?_, ?_⟩
    · have := List.find?_some hf
      exact of_decide_eq_true this
    · intro cur s
      obtain ⟨m, hm⟩ :=
        evictGo_drop c.maxSize s cur (c.cache.eraseP (keyTest k) ++ [e])
      rw [hm]
      exact drop_append_singleton m (c.cache.eraseP (keyTest k)) e
  · exact get_eq_of_find?_none c k

/-- C6 witness: `get` on the older of two entries promotes it past the newer
one. -/
theorem lru_get_behavior_witness :
    (LRUCache.get ⟨9, 5, [(1, ⟨7, 2⟩), (2, ⟨8, 3⟩)]⟩ 1).1
        = some ((7 : Nat))
    ∧ (LRUCache.get (⟨9, 5, [(1, ⟨7, 2⟩), (2, ⟨8, 3⟩)]⟩ : LRUCache Nat Nat) 1).2.cache
        = ([(1, ⟨7, 2⟩), (2, ⟨8, 3⟩)] : List (Nat × CacheEntry Nat)).eraseP
            (keyTest 1) ++ [(1, ⟨7, 2⟩)] := by
  have h := (lru_get_behavior (⟨9, 5, [(1, ⟨7, 2⟩), (2, ⟨8, 3⟩)]⟩ : LRUCache Nat Nat) 1).1
      (1, ⟨7, 2⟩) (by decide)
  exact ⟨h.1, h.2.1⟩

end CacheTheorems

theorem set_cache_mem {K V : Type} [DecidableEq K] (sz : V → Nat)
    (c : LRUCache K V) (k : K) (v : V) (x : K × CacheEntry V)
    (hx : x ∈ (c.set sz k v).cache) : x ∈ c.cache ∨ x = (k, ⟨v, sz v⟩) := by
  rw [set_cache_proj] at hx
  rcases List.mem_append.mp hx with h1 | h2
  · obtain ⟨m, hm⟩ :=
      evictGo_drop c.maxSize (sz v) (curAfterRemove c k) (c.cache.eraseP (keyTest k))
    rw [hm] at h1
    exact Or.inl (List.eraseP_subset _ (List.drop_subset _ _ h1))
  · exact Or.inr (by simpa using h2)

section LookupTheorems

variable {ρ : Type} (sz : RGResult ρ → Nat) (pir : ρ → Pt → Bool)
  (features : List (Feature ρ))

theorem rg_cacheless_fst (la ln : Rat) (m : Option String) :
    (reverseGeolocation sz pir features none (JSValue.num la) (JSValue.num ln) m).1
      = (match scanIndex pir features (ln, la) with
         | none => RGReturn.null
         | some f => RGReturn.result (buildResult m f)) := by
  cases hs : scanIndex pir features (ln, la) <;> simp [reverseGeolocation, hs]

theorem rg_hit (c : GPCache ρ) (la ln : Rat) (m : Option String)
    (e : CacheKey × CacheEntry (RGResult ρ))
    (hf : c.cache.find? (keyTest (la, ln, m)) = some e) :
    reverseGeolocation sz pir features (some c) (JSValue.num la) (JSValue.num ln) m
      = (RGReturn.result e.2.data,
         some ⟨c.maxSize, c.currentSize,
           c.cache.eraseP (keyTest (la, ln, m)) ++ [e]⟩) := by
  simp [reverseGeolocation, get_eq_of_find?_some c (la, ln, m) e hf]

theorem rg_miss (c : GPCache ρ) (la ln : Rat) (m : Option String)
    (hf : c.cache.find? (keyTest (la, ln, m)) = none) :
    reverseGeolocation sz pir features (some c) (JSValue.num la) (JSValue.num ln) m
      = (match scanIndex pir features (ln, la) with
         | none => (RGReturn.null, some c)
         | some f => (RGReturn.result (buildResult m f),
             some (c.set sz (la, ln, m) (buildResult m f)))) := by
  have hg := get_eq_of_find?_none c (la, ln, m) hf
  cases hs : scanIndex pir features (ln, la) <;> simp [reverseGeolocation, hg, hs]

theorem rg_fst_eq_cacheless (cache0 : Option (GPCache ρ))
    (hcoh : CacheCoherentO pir features cache0) (lat lng : JSValue)
    (m : Option String) :
    (reverseGeolocation sz pir features cache0 lat lng m).1
      = (reverseGeolocation sz pir features none lat lng m).1 := by
  cases lat with
  | str s => cases lng <;> (cases cache0 <;> rfl)
  | num la =>
    cases lng with
    | str s => cases cache0 <;> rfl
    | num ln =>
      cases cache0 with
      | none => rfl
      | some c =>
        have hc : CacheCoherent pir features c := hcoh
        cases hf : c.cache.find? (keyTest (la, ln, m)) with
        | none =>
          rw [rg_miss sz pir features c la ln m hf, rg_cacheless_fst]
          cases hs : scanIndex pir features (ln, la) <;> simp [hs]
        | some e =>
          obtain ⟨f, hsf, hdata⟩ := hc e (List.mem_of_find?_eq_some hf)
          have hkey : e.1 = (la, ln, m) := by
            simpa [keyTest] using List.find?_some hf
          rw [hkey] at hsf hdata
          simp only at hsf hdata
          rw [rg_hit sz pir features c la ln m e hf, rg_cacheless_fst, hsf, hdata]

theorem rg_preserves_coherent (cache0 : Option (GPCache ρ))
    (hcoh : CacheCoherentO pir features cache0) (lat lng : JSValue)
    (m : Option String) :
    CacheCoherentO pir features
      (reverseGeolocation sz pir features cache0 lat lng m).2 := by
  cases lat with
  | str s => cases lng <;> exact hcoh
  | num la =>
    cases lng with
    | str s => exact hcoh
    | num ln =>
      cases cache0 with
      | none =>
        cases hs : scanIndex pir features (ln, la) <;>
          simp [reverseGeolocation, hs, CacheCoherentO]
      | some c =>
        have hc : CacheCoherent pir features c := hcoh
        cases hf : c.cache.find? (keyTest (la, ln, m)) with
        | none =>
          rw [rg_miss sz pir features c la ln m hf]
          cases hs : scanIndex pir features (ln, la) with
          | none => exact hcoh
          | some f =>
            show CacheCoherent pir features (c.set sz (la, ln, m) (buildResult m f))
            intro x hx
            rcases set_cache_mem sz c (la, ln, m) (buildResult m f) x hx with hold | hnew
            · exact hc x hold
            · refine ⟨f, ?_, ?_⟩
              · rw [hnew]
                simpa using hs
              · rw [hnew]
        | some e =>
          rw [rg_hit sz pir features c la ln m e hf]
          show CacheCoherent pir features
            ⟨c.maxSize, c.currentSize, c.cache.eraseP (keyTest (la, ln, m)) ++ [e]⟩
          intro x hx
          rcases List.mem_append.mp hx with h1 | h2
          · exact hc x (List.eraseP_subset _ h1)
          · have hxe : x = e := by simpa using h2
            exact hc x (hxe ▸ List.mem_of_find?_eq_some hf)

theorem rg_no_match (cache0 : Option (GPCache ρ))
    (hcoh : CacheCoherentO pir features cache0) (la ln : Rat) (m : Option String)
    (hs : scanIndex pir features (ln, la) = none) :
    reverseGeolocation sz pir features cache0 (JSValue.num la) (JSValue.num ln) m
      = (RGReturn.null, cache0) := by
  cases cache0 with
  | none => simp [reverseGeolocation, hs]
  | some c =>
    have hc : CacheCoherent pir features c := hcoh
    cases hf : c.cache.find? (keyTest (la, ln, m)) with
    | none => rw [rg_miss sz pir features c la ln m hf, hs]
    | some e =>
      exfalso
      obtain ⟨f, hsf, _⟩ := hc e (List.mem_of_find?_eq_some hf)
      have hkey : e.1 = (la, ln, m) := by
        simpa [keyTest] using List.find?_some hf
      rw [hkey] at hsf
      simp only at hsf
      rw [hs] at hsf
      exact Option.noConfusion hsf

/-- C2: when several features' geometries contain the query point, the scan
returns the earliest one in index order, evaluates exactly the features up to
and including it (so the later containing feature is never evaluated), and
the lookup result is built from that earliest feature. -/
theorem first_match_wins (pre mid post : List (Feature ρ)) (fi fj : Feature ρ)
    (la ln : Rat) (m : Option String)
    (hpre : ∀ f ∈ pre, containsPoint pir f.geometry (ln, la) = false)
    (hfi : containsPoint pir fi.geometry (ln, la) = true)
    (hfj : containsPoint pir fj.geometry (ln, la) = true) :
    scanIndex pir (pre ++ fi :: (mid ++ fj :: post)) (ln, la) = some fi
    ∧ (scanT pir (pre ++ fi :: (mid ++ fj :: post)) (ln, la)).2 = pre.length + 1
    ∧ (reverseGeolocation sz pir (pre ++ fi :: (mid ++ fj :: post)) none
        (JSValue.num la) (JSValue.num ln) m).1
      = RGReturn.result (buildResult m fi) := by
  have hscan : scanIndex pir (pre ++ fi :: (mid ++ fj :: post)) (ln, la) = some fi := by
    rw [scanIndex_append_of_none pir (ln, la) pre _ hpre]
    simp [scanIndex, hfi]
  refine ⟨hscan, ?_, ?_⟩
  · have h1 : scanT pir (fi :: (mid ++ fj :: post)) (ln, la) = (some fi, 1) := by
      simp [scanT, hfi]
    rw [scanT_append_of_none pir (ln, la) pre _ hpre, h1]
    show 1 + pre.length = pre.length + 1
    omega
  · rw [rg_cacheless_fst, hscan]

/-- C2 witness: two features containing the point behind one that does not;
the earlier containing feature wins and only two features are evaluated. -/
theorem first_match_wins_witness :
    scanIndex wpir ([wCA] ++ wUS :: ([] ++ wMX :: [])) (0, 0) = some wUS
    ∧ (scanT wpir ([wCA] ++ wUS :: ([] ++ wMX :: [])) (0, 0)).2 = [wCA].length + 1
    ∧ (reverseGeolocation wsz wpir ([wCA] ++ wUS :: ([] ++ wMX :: [])) none
        (JSValue.num 0) (JSValue.num 0) none).1
      = RGReturn.result (buildResult none wUS) :=
  first_match_wins wsz wpir [wCA] [] [] wUS wMX 0 0 none
    (by decide) (by decide) (by decide)

/-- C3: a non-numeric `lat` or `lng` makes `reverseGeolocation` return the
`Error` value carrying both inputs, with the cache state untouched (no cache
probe — a probe of a present key would reorder the cache — and no scan). -/
theorem invalid_input_error (cache0 : Option (GPCache ρ)) (lat lng : JSValue)
    (m : Option String)
    (h : (∀ x, lat ≠ JSValue.num x) ∨ (∀ x, lng ≠ JSValue.num x)) :
    reverseGeolocation sz pir features cache0 lat lng m
      = (RGReturn.error lat lng, cache0) := by
  cases lat with
  | num la =>
    cases lng with
    | num ln =>
      exfalso
      rcases h with h | h
      · exact h la rfl
      · exact h ln rfl
    | str s => rfl
  | str s => cases lng <;> rfl

/-- C3 witness: `lookup("x", 10, 'properties')` returns the error value, not
a fault, and the configured cache is untouched. -/
theorem invalid_input_error_witness :
    reverseGeolocation (fun _ : RGResult Nat => 1) (fun _ _ => false) []
        (some (LRUCache.new 8)) (JSValue.str "x") (JSValue.num 10)
        (some "properties")
      = (RGReturn.error (JSValue.str "x") (JSValue.num 10),
         some (LRUCache.new 8)) :=
  invalid_input_error (fun _ => 1) (fun _ _ => false) [] (some (LRUCache.new 8))
    (JSValue.str "x") (JSValue.num 10) (some "properties")
    (Or.inl fun x h => JSValue.noConfusion h)

/-- C7: a point contained by no feature's geometry yields `null` in all three
modes, and the miss is not stored: the cache comes back exactly as it went
in, so an identical later call re-scans. -/
theorem no_feature_null_all_modes (cache0 : Option (GPCache ρ))
    (hcoh : CacheCoherentO pir features cache0) (la ln : Rat)
    (hnone : ∀ f ∈ features, containsPoint pir f.geometry (ln, la) = false) :
    lookUp sz pir features cache0 (JSValue.num la) (JSValue.num ln)
        = (RGReturn.null, cache0)
    ∧ lookUpRaw sz pir features cache0 (JSValue.num la) (JSValue.num ln)
        = (RGReturn.null, cache0)
    ∧ lookUpGeoJSON sz pir features cache0 (JSValue.num la) (JSValue.num ln)
        = (RGReturn.null, cache0) := by
  have hs := scanIndex_eq_none pir (ln, la) features hnone
  exact ⟨rg_no_match sz pir features cache0 hcoh la ln none hs,
    rg_no_match sz pir features cache0 hcoh la ln (some "raw") hs,
    rg_no_match sz pir features cache0 hcoh la ln (some "geojson") hs⟩

/-- C7 witness: the ocean point (lat 0, lng -170) against a feature that
does not contain it, with a configured empty cache. -/
theorem no_feature_null_all_modes_witness :
    lookUp wsz wpir [wCA] (some (LRUCache.new 6)) (JSValue.num 0)
        (JSValue.num (-170)) = (RGReturn.null, some (LRUCache.new 6))
    ∧ lookUpRaw wsz wpir [wCA] (some (LRUCache.new 6)) (JSValue.num 0)
        (JSValue.num (-170)) = (RGReturn.null, some (LRUCache.new 6))
    ∧ lookUpGeoJSON wsz wpir [wCA] (some (LRUCache.new 6)) (JSValue.num 0)
        (JSValue.num (-170)) = (RGReturn.null, some (LRUCache.new 6)) :=
  no_feature_null_all_modes wsz wpir [wCA] (some (LRUCache.new 6))
    (fun x hx => absurd hx (List.not_mem_nil x)) 0 (-170) (by decide)

/-- C8: in the default (properties) mode the result derived from a matched
feature carries the continent, alpha-2, alpha-3 and region codes from the
feature's properties, and carries `state_code` exactly when the raw
subdivision code is non-empty and does not end in `~`; otherwise the field is
absent (`none`), never null. -/
theorem properties_mode_fields (la ln : Rat) (f : Feature ρ)
    (h : scanIndex pir features (ln, la) = some f) :
    ∃ d, (reverseGeolocation sz pir features none (JSValue.num la)
            (JSValue.num ln) none).1 = RGReturn.result (RGResult.propsOnly d)
      ∧ d.continent_code = f.properties.cont_code
      ∧ d.country_a2 = f.properties.iso_a2
      ∧ d.country_a3 = f.properties.adm0_a3
      ∧ d.region_code = f.properties.region_code
      ∧ ∀ s, (d.state_code = some s ↔
          (s = f.properties.iso_3166_2 ∧ f.properties.iso_3166_2 ≠ ""
            ∧ f.properties.iso_3166_2.endsWith "~" = false)) := by
  refine ⟨deriveProperties f.properties, ?_, rfl, rfl, rfl, rfl, ?_⟩
  · rw [rg_cacheless_fst, h]
    rfl
  · intro s
    have hsc : (deriveProperties f.properties).state_code
        = if f.properties.iso_3166_2 ≠ ""
              ∧ f.properties.iso_3166_2.endsWith "~" = false
          then some f.properties.iso_3166_2 else none := rfl
    rw [hsc]
    by_cases hcond : f.properties.iso_3166_2 ≠ ""
        ∧ f.properties.iso_3166_2.endsWith "~" = false
    · rw [if_pos hcond]
      constructor
      · intro hs
        exact ⟨(Option.some.inj hs).symm, hcond⟩
      · rintro ⟨h1, _⟩
        rw [h1]
    · rw [if_neg hcond]
      constructor
      · intro hs
        exact absurd hs (by simp)
      · rintro ⟨h1, h2, h3⟩
        exact absurd ⟨h2, h3⟩ hcond

/-- C8 witness: a synthetic US-KS feature matched in default mode. -/
theorem properties_mode_fields_witness :
    ∃ d, (reverseGeolocation wsz wpir [wUS] none (JSValue.num 39)
            (JSValue.num (-98)) none).1 = RGReturn.result (RGResult.propsOnly d)
      ∧ d.continent_code = wUS.properties.cont_code
      ∧ d.country_a2 = wUS.properties.iso_a2
      ∧ d.country_a3 = wUS.properties.adm0_a3
      ∧ d.region_code = wUS.properties.region_code
      ∧ ∀ s, (d.state_code = some s ↔
          (s = wUS.properties.iso_3166_2 ∧ wUS.properties.iso_3166_2 ≠ ""
            ∧ wUS.properties.iso_3166_2.endsWith "~" = false)) :=
  properties_mode_fields wsz wpir [wUS] 39 (-98) wUS (by decide)

/-- C9: against the same feature index, the returned value of a lookup does
not depend on which coherent cache state it runs with (hit or miss, before or
after unrelated insertions and evictions), and lookups preserve coherence. -/
theorem lookup_deterministic (c1 c2 : Option (GPCache ρ))
    (h1 : CacheCoherentO pir features c1) (h2 : CacheCoherentO pir features c2)
    (lat lng : JSValue) (m : Option String) :
    (reverseGeolocation sz pir features c1 lat lng m).1
      = (reverseGeolocation sz pir features c2 lat lng m).1
    ∧ CacheCoherentO pir features
        (reverseGeolocation sz pir features c1 lat lng m).2 :=
  ⟨(rg_fst_eq_cacheless sz pir features c1 h1 lat lng m).trans
      (rg_fst_eq_cacheless sz pir features c2 h2 lat lng m).symm,
    rg_preserves_coherent sz pir features c1 h1 lat lng m⟩

/-- C9 witness: no cache versus a configured empty cache give the same
output, and the resulting cache state stays coherent. -/
theorem lookup_deterministic_witness :
    (reverseGeolocation wsz wpir [wUS] none (JSValue.num 1) (JSValue.num 2)
        none).1
      = (reverseGeolocation wsz wpir [wUS] (some (LRUCache.new 6))
          (JSValue.num 1) (JSValue.num 2) none).1
    ∧ CacheCoherentO wpir [wUS]
        (reverseGeolocation wsz wpir [wUS] none (JSValue.num 1) (JSValue.num 2)
          none).2 :=
  lookup_deterministic wsz wpir [wUS] none (some (LRUCache.new 6)) True.intro
    (fun x hx => absurd hx (List.not_mem_nil x)) (JSValue.num 1) (JSValue.num 2)
    none

end LookupTheorems

section ConfigurationTheorems

variable {K V : Type}

/-- C10: once the cache singleton exists, any later `configure` call — with
any `cacheSize` — leaves the instance (its capacity, entries and size
counter) unchanged, and rebinds `config.cache` to that same old instance:
`getCache` ignores its `maxSize` argument whenever an instance exists, so the
size setting only takes effect on the very first configuration. -/
theorem configure_keeps_existing_cache (st : LibState K V) (c : LRUCache K V)
    (opts : ConfigureOptions) (h : st.cacheInstance = some c) :
    (configure opts st).cacheInstance = some c
    ∧ (∀ n, opts.cacheSize = some n → (configure opts st).cache = some c)
    ∧ (∀ m, getCache (some c) m = (c, some c)) := by
  refine ⟨?_, ?_, fun m => rfl⟩
  · cases hcs : opts.cacheSize with
    | none =>
      cases hu : opts.useOptimized <;> simp [configure, hcs, hu, h]
    | some n =>
      cases hu : opts.useOptimized <;> simp [configure, hcs, hu, h, getCache]
  · intro n hn
    cases hu : opts.useOptimized <;> simp [configure, hn, hu, h, getCache]

/-- C10 witness: reconfiguring with a very different `cacheSize` leaves a
pre-existing instance of capacity 7 untouched. -/
theorem configure_keeps_existing_cache_witness :
    (configure ⟨some 999, some false⟩
        (⟨50, true, some (LRUCache.new 7), some (LRUCache.new 7)⟩
          : LibState Nat Nat)).cacheInstance = some (LRUCache.new 7)
    ∧ (∀ n, (⟨some 999, some false⟩ : ConfigureOptions).cacheSize = some n →
        (configure ⟨some 999, some false⟩
          (⟨50, true, some (LRUCache.new 7), some (LRUCache.new 7)⟩
            : LibState Nat Nat)).cache = some (LRUCache.new 7))
    ∧ (∀ m, getCache (some (LRUCache.new (K := Nat) (V := Nat) 7)) m
        = (LRUCache.new 7, some (LRUCache.new 7))) :=
  configure_keeps_existing_cache
    (⟨50, true, some (LRUCache.new 7), some (LRUCache.new 7)⟩ : LibState Nat Nat)
    (LRUCache.new 7) ⟨some 999, some false⟩ rfl

end ConfigurationTheorems

end GeojsonPlaces
